import Mathlib

/-!
Shallow embedding of the `bytecast` Go package (files `bytecast.go` and the
unnamed variant module) and verification of its specification claims.

Modelling conventions:
* Go `[]byte` is `List ℕ` with the invariant that every element is `< 256`
  (the invariant is carried as a hypothesis where a theorem needs it, since
  Go's `byte` type enforces it at the language level).
* Go `int64` values are `ℤ` restricted by hypotheses to `[-2^63, 2^63)`;
  Go `uint64` values are `ℕ` restricted to `[0, 2^64)`.  Machine wrap-around
  (overflowing `int64` arithmetic, `uint64` conversions) is made explicit
  with `% 2^64` / `toInt64`.
* `*big.Int` is `ℤ`; `big.Int.Bytes()` (minimal big-endian magnitude bytes)
  is `natBytes`, `big.Int.SetBytes` (big-endian value of a byte slice) is
  `beVal`, `big.Int.BitLen()` is `natBitLen`.
* Functions returning `(T, error)` become `Except BCErr T`.  A Go runtime
  panic from an out-of-bounds slice index (which Go's memory-safe semantics
  raises on every index operation) is modelled by the distinguished result
  `BCErr.indexOutOfRange`, kept separate from ordinary error returns.
-/

/-- Error kinds raised by the package.  The Go code returns `fmt.Errorf`
strings; each constructor corresponds to one distinct error site.
`indexOutOfRange` is not an error return but the runtime panic raised by a
slice index outside `[0, len)`. -/
inductive BCErr where
  | unsupportedBitWidth
  | rangeErr
  | widthTooSmall
  | lengthErr
  | overflow
  | indexOutOfRange
  deriving DecidableEq

/-- Reinterpretation of an integer as a signed 64-bit value (two's
complement wrap-around), modelling Go's `int64` casts and overflowing
`int64` arithmetic. -/
def toInt64 (n : ℤ) : ℤ := (n + 2 ^ 63) % 2 ^ 64 - 2 ^ 63

/-- Unsigned big-endian value of a byte list; models `big.Int.SetBytes`. -/
def beVal : List ℕ → ℕ
  | [] => 0
  | b :: rest => b * 2 ^ (8 * rest.length) + beVal rest

/-- The `n` big-endian bytes of `u`, most significant first: the content the
fixed-width encoders write into the trailing `n` positions of the output
(`out[i] = byte(u >> offset)` with `offset` descending from `8*(n-1)`). -/
def beBytes (u : ℕ) : ℕ → List ℕ
  | 0 => []
  | n + 1 => (u / 2 ^ (8 * n)) % 256 :: beBytes u n

/-- Accumulator of the decoders' read loop `u |= uint64(bytes[i]) << offset`,
over the byte list with `offset` descending from `8*(len-1)` to `0`. -/
def orBE : List ℕ → ℕ
  | [] => 0
  | b :: rest => (b <<< (8 * rest.length)) ||| orBE rest

/-- Checked list update at a (possibly negative) index, modelling Go's
bounds-checked slice assignment `out[i] = v`; `none` is the runtime panic. -/
def setAt (l : List ℕ) (i : ℤ) (v : ℕ) : Option (List ℕ) :=
  if 0 ≤ i ∧ i < (l.length : ℤ) then some (l.set i.toNat v) else none

/-- The encoders' write loop
`for i := width - neededBytesNum; i < width; i++ { out[i] = byte(u >> offset); offset -= 8 }`,
unrolled on the iteration count (the loop runs exactly `neededBytesNum`
times).  Index and offset are `ℤ` because the Go loop variable may start
negative, in which case the first iteration panics. -/
def writeLoop (u : ℕ) : ℕ → List ℕ → ℤ → ℤ → Option (List ℕ)
  | 0, out, _, _ => some out
  | fuel + 1, out, i, offset =>
    match setAt out i ((u / 2 ^ offset.toNat) % 256) with
    | none => none
    | some out2 => writeLoop u fuel out2 (i + 1) (offset - 8)

/-- Minimal big-endian byte representation of a natural number (no leading
zero bytes, empty for `0`); models `big.Int.Bytes()`.  The first argument is
recursion fuel; `n` itself is always sufficient. -/
def natBytesAux : ℕ → ℕ → List ℕ
  | 0, _ => []
  | fuel + 1, n => if n = 0 then [] else natBytesAux fuel (n / 256) ++ [n % 256]

/-- Minimal big-endian bytes of `n`; models `big.Int.Bytes()`. -/
def natBytes (n : ℕ) : List ℕ := natBytesAux n n

/-- Bit length of a natural number (`0` for `0`); the first argument is
recursion fuel; `n` itself is always sufficient. -/
def bitLenAux : ℕ → ℕ → ℕ
  | 0, _ => 0
  | fuel + 1, n => if n = 0 then 0 else bitLenAux fuel (n / 2) + 1

/-- Bit length of `n`; models `big.Int.BitLen()`. -/
def natBitLen (n : ℕ) : ℕ := bitLenAux n n

/-- Embeds `LeftPadBytes` from `bytecast.go`: left-pad `input` with copies of
`padByte` up to `size`; inputs already at least `size` long are returned
unchanged. -/
def LeftPadBytes (input : List ℕ) (size : ℕ) (padByte : ℕ) : List ℕ :=
  if size ≤ input.length then input
  else List.replicate (size - input.length) padByte ++ input

/-- Embeds `LeftPadBytes00` from `bytecast.go`. -/
def LeftPadBytes00 (input : List ℕ) (size : ℕ) : List ℕ :=
  LeftPadBytes input size 0x00

/-- Embeds `LeftPadBytesFF` from `bytecast.go`. -/
def LeftPadBytesFF (input : List ℕ) (size : ℕ) : List ℕ :=
  LeftPadBytes input size 0xFF

/-- Embeds `IntXXToBytesAndExpandWidth` from the unnamed module: treat
`value` (an `int64` container) as an `xx`-bit signed value and write it
big-endian into the trailing `ceil(xx/8)` bytes of a fresh `width`-byte
buffer, filling leading bytes with `0xFF` for negative values.

Faithfulness notes: `maxPossibleV`/`minPossibleV` reproduce the Go `int64`
shift/subtract including its wrap-around at `xx = 64` (via `toInt64`);
the two's-complement conversion `uint64(value + (1 << xx))` is the exact
`% 2^64` expression; `neededBytesNum = int(math.Ceil(float64(xx)/8))` is
`(xx+7)/8` exactly for `xx ≤ 64`; the write loop has no preliminary width
check, so `width < neededBytesNum` makes its first iteration index
`out[width-neededBytesNum]` with a negative index — a runtime panic. -/
def IntXXToBytesAndExpandWidth (value : ℤ) (xx : ℕ) (width : ℕ) :
    Except BCErr (List ℕ) :=
  if xx = 0 ∨ 64 < xx then .error .unsupportedBitWidth
  else
    let maxPossibleV : ℤ := toInt64 (2 ^ (xx - 1) - 1)
    let minPossibleV : ℤ := toInt64 (-(2 ^ (xx - 1)))
    if value < minPossibleV ∨ maxPossibleV < value then .error .rangeErr
    else
      let u : ℕ :=
        if value < 0 then ((value + 2 ^ xx) % 2 ^ 64).toNat else value.toNat
      let neededBytesNum : ℕ := (xx + 7) / 8
      match writeLoop u neededBytesNum (List.replicate width 0)
          ((width : ℤ) - (neededBytesNum : ℤ)) (8 * ((neededBytesNum : ℤ) - 1)) with
      | none => .error .indexOutOfRange
      | some out =>
        if value < 0 then
          .ok (List.replicate (width - neededBytesNum) 0xFF ++
            out.drop (width - neededBytesNum))
        else .ok out

/-- Embeds `UintXXToBytesAndExpandWidth` from the unnamed module: treat
`value` (a `uint64` container) as an `xx`-bit unsigned value and write it
big-endian into the trailing `ceil(xx/8)` bytes of a fresh zeroed
`width`-byte buffer.  `maxPossibleV` reproduces `uint64(1)<<xx - 1`
including the wrap at `xx = 64`; like the signed encoder there is no width
check before the write loop. -/
def UintXXToBytesAndExpandWidth (value : ℕ) (xx : ℕ) (width : ℕ) :
    Except BCErr (List ℕ) :=
  if xx = 0 ∨ 64 < xx then .error .unsupportedBitWidth
  else
    let maxPossibleV : ℕ := (2 ^ xx - 1) % 2 ^ 64
    if maxPossibleV < value then .error .rangeErr
    else
      let u : ℕ := value &&& maxPossibleV
      let neededBytesNum : ℕ := (xx + 7) / 8
      match writeLoop u neededBytesNum (List.replicate width 0)
          ((width : ℤ) - (neededBytesNum : ℤ)) (8 * ((neededBytesNum : ℤ) - 1)) with
      | none => .error .indexOutOfRange
      | some out => .ok out

/-- Embeds `IntXXFromBytes` from the unnamed module: reassemble the trailing
`ceil(xx/8)` bytes into a `uint64` accumulator, then (unless `xx = 64` or
the sign bit `xx-1` is clear) OR in the sign-extension mask
`^((1 << xx) - 1)` — which as a `uint64` is `2^64 - 2^xx` — and reinterpret
as `int64`. -/
def IntXXFromBytes (bytes : List ℕ) (xx : ℕ) : Except BCErr ℤ :=
  if xx = 0 ∨ 64 < xx then .error .unsupportedBitWidth
  else
    let neededBytesNum : ℕ := (xx + 7) / 8
    if bytes.length < neededBytesNum then .error .lengthErr
    else
      let u : ℕ := orBE (bytes.drop (bytes.length - neededBytesNum))
      if xx = 64 ∨ u &&& (1 <<< (xx - 1)) = 0 then .ok (toInt64 u)
      else
        let mask : ℕ := 2 ^ 64 - 2 ^ xx
        .ok (toInt64 (u ||| mask))

/-- Embeds `UintXXFromBytes` from the unnamed module: reassemble the
trailing `ceil(xx/8)` bytes into a `uint64` accumulator and return it. -/
def UintXXFromBytes (bytes : List ℕ) (xx : ℕ) : Except BCErr ℕ :=
  if xx = 0 ∨ 64 < xx then .error .unsupportedBitWidth
  else
    let neededBytesNum : ℕ := (xx + 7) / 8
    if bytes.length < neededBytesNum then .error .lengthErr
    else .ok (orBE (bytes.drop (bytes.length - neededBytesNum)))

/-- Embeds `BigIntToBytesAndExpandWidth` from `bytecast.go`: non-negative
values are bounds-checked against `width*8` bits and left-zero-padded to
`width`; negative values are encoded as `twos = 2^(width*8) + value` and
returned as `twos`'s minimal byte representation, with no padding step. -/
def BigIntToBytesAndExpandWidth (bigInt : ℤ) (width : ℕ) :
    Except BCErr (List ℕ) :=
  let bitLen : ℕ := width * 8
  if 0 ≤ bigInt then
    if bitLen < natBitLen bigInt.natAbs then .error .overflow
    else .ok (LeftPadBytes00 (natBytes bigInt.natAbs) width)
  else
    let mod : ℤ := 2 ^ bitLen
    let twos : ℤ := mod + bigInt
    if twos < 0 ∨ bitLen < natBitLen twos.natAbs then .error .overflow
    else .ok (natBytes twos.natAbs)

/-- Embeds `BigIntFromBytes` from `bytecast.go`: read the buffer as an
unsigned big-endian value `x`; if the buffer is empty or the high bit of
its first byte (`byteValue[0] & 0x80`) is clear return `x`, otherwise
return `x - 2^(8*len)`. -/
def BigIntFromBytes (byteValue : List ℕ) : ℤ :=
  let x : ℤ := (beVal byteValue : ℕ)
  if byteValue = [] ∨ (byteValue.headD 0) &&& 0x80 = 0 then x
  else x - 2 ^ (8 * byteValue.length)

/-- Embeds `BigIntXXXFromBytes` from the unnamed module: reject `xxx ≤ 64`,
then read the trailing `ceil(xxx/8)` bytes as an unsigned value and
subtract `2^xxx` when bit `xxx-1` is set. -/
def BigIntXXXFromBytes (bytes : List ℕ) (xxx : ℕ) : Except BCErr ℤ :=
  if xxx ≤ 64 then .error .unsupportedBitWidth
  else
    let neededBytesNum : ℕ := (xxx + 7) / 8
    if bytes.length < neededBytesNum then .error .lengthErr
    else
      let resultUnsigned : ℕ := beVal (bytes.drop (bytes.length - neededBytesNum))
      if Nat.testBit resultUnsigned (xxx - 1) = false then .ok (resultUnsigned : ℤ)
      else .ok ((resultUnsigned : ℤ) - 2 ^ xxx)

/-! ### Arithmetic facts about the byte-level helpers -/

theorem beVal_append (l1 l2 : List ℕ) :
    beVal (l1 ++ l2) = beVal l1 * 2 ^ (8 * l2.length) + beVal l2 := by
  induction l1 with
  | nil => simp [beVal]
  | cons b t ih =>
    simp only [List.cons_append, beVal, List.append_eq, List.length_append, ih]
    rw [show 8 * (t.length + l2.length) = 8 * t.length + 8 * l2.length by ring,
      pow_add]
    ring

theorem beVal_replicate_zero (n : ℕ) : beVal (List.replicate n 0) = 0 := by
  induction n with
  | zero => rfl
  | succ n ih => simp [List.replicate_succ, beVal, ih]

theorem beVal_lt (l : List ℕ) (h : ∀ b ∈ l, b < 256) :
    beVal l < 2 ^ (8 * l.length) := by
  induction l with
  | nil => simp [beVal]
  | cons b t ih =>
    have hb : b < 256 := h b (by simp)
    have ht := ih fun x hx => h x (by simp [hx])
    simp only [beVal, List.length_cons]
    have hp : (2 : ℕ) ^ (8 * (t.length + 1)) = 2 ^ (8 * t.length) * 256 := by
      rw [show 8 * (t.length + 1) = 8 * t.length + 8 by ring, pow_add]
      norm_num
    rw [hp]
    nlinarith [ht, hb]

theorem beBytes_length (u n : ℕ) : (beBytes u n).length = n := by
  induction n with
  | zero => rfl
  | succ n ih => simp [beBytes, ih]

theorem beBytes_wf (u n : ℕ) : ∀ b ∈ beBytes u n, b < 256 := by
  induction n with
  | zero => simp [beBytes]
  | succ n ih =>
    intro b hb
    simp only [beBytes, List.mem_cons] at hb
    rcases hb with hb | hb
    · subst hb; exact Nat.mod_lt _ (by norm_num)
    · exact ih b hb

theorem beVal_beBytes (u n : ℕ) : beVal (beBytes u n) = u % 2 ^ (8 * n) := by
  induction n with
  | zero => simp [beBytes, beVal, Nat.mod_one]
  | succ n ih =>
    simp only [beBytes, beVal, beBytes_length, ih]
    have hp : (2 : ℕ) ^ (8 * (n + 1)) = 2 ^ (8 * n) * 256 := by
      rw [show 8 * (n + 1) = 8 * n + 8 by ring, pow_add]
      norm_num
    rw [hp, Nat.mod_mul]
    ring

theorem testBit_mul_pow_add {a b k : ℕ} (hb : b < 2 ^ k) (j : ℕ) :
    (a * 2 ^ k + b).testBit j =
      if j < k then b.testBit j else a.testBit (j - k) := by
  by_cases hj : j < k
  · simp only [hj, if_true]
    rw [Nat.testBit_to_div_mod, Nat.testBit_to_div_mod]
    congr 1
    have h1 : a * 2 ^ k + b = b + 2 ^ j * (a * 2 ^ (k - j)) := by
      rw [show (2:ℕ) ^ k = 2 ^ j * 2 ^ (k - j) by rw [← pow_add]; congr 1; omega]
      ring
    rw [h1, Nat.add_mul_div_left _ _ (pow_pos (by norm_num) j)]
    rw [show k - j = k - j - 1 + 1 by omega, pow_succ,
      show a * (2 ^ (k - j - 1) * 2) = a * 2 ^ (k - j - 1) * 2 by ring,
      Nat.add_mul_mod_self_right]
  · simp only [hj, if_false]
    rw [Nat.testBit_to_div_mod, Nat.testBit_to_div_mod]
    congr 1
    rw [show (2:ℕ) ^ j = 2 ^ k * 2 ^ (j - k) by rw [← pow_add]; congr 1; omega,
      ← Nat.div_div_eq_div_mul]
    congr 1
    rw [show a * 2 ^ k + b = b + 2 ^ k * a by ring,
      Nat.add_mul_div_left _ _ (pow_pos (by norm_num) k),
      Nat.div_eq_of_lt hb]
    simp

theorem lor_eq_add {a b k : ℕ} (hb : b < 2 ^ k) :
    a * 2 ^ k ||| b = a * 2 ^ k + b := by
  apply Nat.eq_of_testBit_eq
  intro j
  rw [Nat.testBit_lor, testBit_mul_pow_add hb j, ← Nat.shiftLeft_eq,
    Nat.testBit_shiftLeft]
  by_cases hj : j < k
  · simp [hj, Nat.not_le.mpr hj]
  · have hbj : b.testBit j = false :=
      Nat.testBit_lt_two_pow
        (lt_of_lt_of_le hb (Nat.pow_le_pow_right (by norm_num) (by omega)))
    simp [hj, Nat.le_of_not_lt hj, hbj]

theorem orBE_eq_beVal (l : List ℕ) (h : ∀ b ∈ l, b < 256) :
    orBE l = beVal l := by
  induction l with
  | nil => rfl
  | cons b t ih =>
    have ht : ∀ x ∈ t, x < 256 := fun x hx => h x (by simp [hx])
    simp only [orBE, beVal, Nat.shiftLeft_eq, ih ht]
    exact lor_eq_add (beVal_lt t ht)

theorem toInt64_eq_self {n : ℤ} (h1 : -(2 ^ 63) ≤ n) (h2 : n < 2 ^ 63) :
    toInt64 n = n := by
  unfold toInt64
  omega

theorem toInt64_eq_sub {n : ℤ} (h1 : 2 ^ 63 ≤ n) (h2 : n < 2 ^ 64) :
    toInt64 n = n - 2 ^ 64 := by
  unfold toInt64
  omega

theorem writeLoop_none (u : ℕ) (fuel : ℕ) (out : List ℕ) (i offset : ℤ)
    (hf : fuel ≠ 0) (hi : i < 0) : writeLoop u fuel out i offset = none := by
  cases fuel with
  | zero => exact absurd rfl hf
  | succ f =>
    have hset : setAt out i ((u / 2 ^ offset.toNat) % 256) = none := by
      unfold setAt
      rw [if_neg]
      intro ⟨h0, _⟩
      omega
    simp [writeLoop, hset]

theorem writeLoop_app (u : ℕ) :
    ∀ (n : ℕ) (pre suf : List ℕ), suf.length = n →
      writeLoop u n (pre ++ suf) (pre.length : ℤ) (8 * ((n : ℤ) - 1)) =
        some (pre ++ beBytes u n) := by
  intro n
  induction n with
  | zero =>
    intro pre suf hlen
    rw [List.length_eq_zero.mp hlen]
    simp [writeLoop, beBytes]
  | succ n ih =>
    intro pre suf hlen
    obtain ⟨b, suf2, rfl⟩ : ∃ b suf2, suf = b :: suf2 := by
      cases suf with
      | nil => simp at hlen
      | cons b s => exact ⟨b, s, rfl⟩
    have hofs : (8 * (((n + 1 : ℕ) : ℤ) - 1)).toNat = 8 * n := by
      rw [show (8 * (((n + 1 : ℕ) : ℤ) - 1)) = ((8 * n : ℕ) : ℤ) by push_cast; ring]
      exact Int.toNat_ofNat _
    have hset : setAt (pre ++ b :: suf2) (pre.length : ℤ)
        ((u / 2 ^ (8 * (((n + 1 : ℕ) : ℤ) - 1)).toNat) % 256) =
        some (pre ++ (u / 2 ^ (8 * n)) % 256 :: suf2) := by
      unfold setAt
      rw [if_pos ⟨Int.ofNat_nonneg _, by
        simp only [List.length_append, List.length_cons]
        push_cast
        omega⟩]
      rw [hofs, Int.toNat_ofNat,
        List.set_append_right _ _ (le_refl pre.length), Nat.sub_self]
      rfl
    simp only [writeLoop, hset]
    have harg : (pre.length : ℤ) + 1 = ((pre ++ [(u / 2 ^ (8 * n)) % 256]).length : ℤ) := by
      simp
    have hofs2 : 8 * (((n + 1 : ℕ) : ℤ) - 1) - 8 = 8 * ((n : ℤ) - 1) := by
      push_cast
      ring
    rw [show pre ++ (u / 2 ^ (8 * n)) % 256 :: suf2 =
        (pre ++ [(u / 2 ^ (8 * n)) % 256]) ++ suf2 by simp, harg, hofs2,
      ih (pre ++ [(u / 2 ^ (8 * n)) % 256]) suf2 (by simpa using hlen)]
    simp [beBytes]

theorem natBytesAux_fuel (f1 : ℕ) :
    ∀ (f2 n : ℕ), n ≤ f1 → n ≤ f2 → natBytesAux f1 n = natBytesAux f2 n := by
  induction f1 with
  | zero =>
    intro f2 n h1 _
    have : n = 0 := by omega
    subst this
    cases f2 <;> simp [natBytesAux]
  | succ f ih =>
    intro f2 n h1 h2
    by_cases hn : n = 0
    · subst hn
      cases f2 <;> simp [natBytesAux]
    · obtain ⟨f2p, rfl⟩ : ∃ m, f2 = m + 1 := ⟨f2 - 1, by omega⟩
      have hdiv : n / 256 < n := Nat.div_lt_self (by omega) (by norm_num)
      simp only [natBytesAux, hn, if_false]
      rw [ih f2p (n / 256) (by omega) (by omega)]

theorem natBytes_eq_cons (n : ℕ) (h : n ≠ 0) :
    natBytes n = natBytes (n / 256) ++ [n % 256] := by
  unfold natBytes
  obtain ⟨m, rfl⟩ : ∃ m, n = m + 1 := ⟨n - 1, by omega⟩
  have hdiv : (m + 1) / 256 ≤ m := by
    have := Nat.div_lt_self (show 0 < m + 1 by omega) (show 1 < 256 by norm_num)
    omega
  simp only [natBytesAux, h, if_false]
  rw [natBytesAux_fuel m ((m + 1) / 256) ((m + 1) / 256) hdiv (le_refl _)]

theorem natBytes_wf (n : ℕ) : ∀ b ∈ natBytes n, b < 256 := by
  induction n using Nat.strong_induction_on with
  | _ n ih =>
    by_cases hn : n = 0
    · subst hn
      simp [natBytes, natBytesAux]
    · rw [natBytes_eq_cons n hn]
      intro b hb
      rcases List.mem_append.mp hb with hb | hb
      · exact ih (n / 256) (Nat.div_lt_self (by omega) (by norm_num)) b hb
      · simp only [List.mem_singleton] at hb
        subst hb
        exact Nat.mod_lt _ (by norm_num)

theorem beVal_natBytes (n : ℕ) : beVal (natBytes n) = n := by
  induction n using Nat.strong_induction_on with
  | _ n ih =>
    by_cases hn : n = 0
    · subst hn
      rfl
    · rw [natBytes_eq_cons n hn, beVal_append,
        ih (n / 256) (Nat.div_lt_self (by omega) (by norm_num))]
      simp [beVal]
      omega

theorem natBytes_len_le {n w : ℕ} (h : n < 2 ^ (8 * w)) :
    (natBytes n).length ≤ w := by
  induction n using Nat.strong_induction_on generalizing w with
  | _ n ih =>
    by_cases hn : n = 0
    · subst hn
      simp [natBytes, natBytesAux]
    · have hw : w ≠ 0 := by
        intro hw
        subst hw
        simp at h
        omega
      obtain ⟨wp, rfl⟩ : ∃ m, w = m + 1 := ⟨w - 1, by omega⟩
      rw [natBytes_eq_cons n hn]
      simp only [List.length_append, List.length_cons, List.length_nil]
      have hdivlt : n / 256 < 2 ^ (8 * wp) := by
        rw [Nat.div_lt_iff_lt_mul (by norm_num)]
        calc n < 2 ^ (8 * (wp + 1)) := h
        _ = 2 ^ (8 * wp) * 256 := by
          rw [show 8 * (wp + 1) = 8 * wp + 8 by ring, pow_add]
          norm_num
      have := ih (n / 256) (Nat.div_lt_self (by omega) (by norm_num)) hdivlt
      omega

theorem natBytes_len_eq {n w : ℕ} (hw : 1 ≤ w) (hlo : 2 ^ (8 * (w - 1)) ≤ n)
    (hhi : n < 2 ^ (8 * w)) : (natBytes n).length = w := by
  have hle := natBytes_len_le hhi
  have hge : w ≤ (natBytes n).length := by
    have hlt : n < 2 ^ (8 * (natBytes n).length) := by
      calc n = beVal (natBytes n) := (beVal_natBytes n).symm
      _ < 2 ^ (8 * (natBytes n).length) := beVal_lt _ (natBytes_wf n)
    have : (2 : ℕ) ^ (8 * (w - 1)) < 2 ^ (8 * (natBytes n).length) :=
      lt_of_le_of_lt hlo hlt
    have := (Nat.pow_lt_pow_iff_right (by norm_num : 1 < 2)).mp this
    omega
  omega

theorem bitLenAux_fuel (f1 : ℕ) :
    ∀ (f2 n : ℕ), n ≤ f1 → n ≤ f2 → bitLenAux f1 n = bitLenAux f2 n := by
  induction f1 with
  | zero =>
    intro f2 n h1 _
    have : n = 0 := by omega
    subst this
    cases f2 <;> simp [bitLenAux]
  | succ f ih =>
    intro f2 n h1 h2
    by_cases hn : n = 0
    · subst hn
      cases f2 <;> simp [bitLenAux]
    · obtain ⟨f2p, rfl⟩ : ∃ m, f2 = m + 1 := ⟨f2 - 1, by omega⟩
      have hdiv : n / 2 < n := Nat.div_lt_self (by omega) (by norm_num)
      simp only [bitLenAux, hn, if_false]
      rw [ih f2p (n / 2) (by omega) (by omega)]

theorem natBitLen_eq_succ (n : ℕ) (h : n ≠ 0) :
    natBitLen n = natBitLen (n / 2) + 1 := by
  unfold natBitLen
  obtain ⟨m, rfl⟩ : ∃ m, n = m + 1 := ⟨n - 1, by omega⟩
  have hdiv : (m + 1) / 2 ≤ m := by
    have := Nat.div_lt_self (show 0 < m + 1 by omega) (show 1 < 2 by norm_num)
    omega
  simp only [bitLenAux, h, if_false]
  rw [bitLenAux_fuel m ((m + 1) / 2) ((m + 1) / 2) hdiv (le_refl _)]

theorem natBitLen_le {n : ℕ} : ∀ {m : ℕ}, natBitLen n ≤ m ↔ n < 2 ^ m := by
  induction n using Nat.strong_induction_on with
  | _ n ih =>
    intro m
    by_cases hn : n = 0
    · subst hn
      simp [natBitLen, bitLenAux, Nat.pos_pow_of_pos]
    · rw [natBitLen_eq_succ n hn]
      cases m with
      | zero =>
        simp only [pow_zero]
        omega
      | succ m =>
        rw [Nat.succ_le_succ_iff,
          ih (n / 2) (Nat.div_lt_self (by omega) (by norm_num)),
          pow_succ, Nat.div_lt_iff_lt_mul (by norm_num)]

theorem headD_eq_div (l : List ℕ) (hwf : ∀ b ∈ l, b < 256) (hne : l ≠ []) :
    l.headD 0 = beVal l / 2 ^ (8 * (l.length - 1)) := by
  cases l with
  | nil => exact absurd rfl hne
  | cons b t =>
    have ht : ∀ x ∈ t, x < 256 := fun x hx => hwf x (by simp [hx])
    simp only [List.headD, beVal, List.length_cons, Nat.add_sub_cancel]
    rw [show b * 2 ^ (8 * t.length) + beVal t =
        beVal t + 2 ^ (8 * t.length) * b by ring,
      Nat.add_mul_div_left _ _ (pow_pos (by norm_num) _),
      Nat.div_eq_of_lt (beVal_lt t ht)]
    simp

theorem beVal_all_255 (l : List ℕ) (h : ∀ b ∈ l, b = 255) :
    beVal l = 2 ^ (8 * l.length) - 1 := by
  induction l with
  | nil => rfl
  | cons b t ih =>
    have hb : b = 255 := h b (by simp)
    have ht := ih fun x hx => h x (by simp [hx])
    simp only [beVal, List.length_cons, ht, hb]
    have hp : (2 : ℕ) ^ (8 * (t.length + 1)) = 2 ^ (8 * t.length) * 256 := by
      rw [show 8 * (t.length + 1) = 8 * t.length + 8 by ring, pow_add]
      norm_num
    have hpos : (1 : ℕ) ≤ 2 ^ (8 * t.length) := Nat.one_le_two_pow
    omega

instance {e a : Type} [DecidableEq e] [DecidableEq a] :
    DecidableEq (Except e a) := fun x y =>
  match x, y with
  | .ok u, .ok v =>
    if h : u = v then isTrue (by rw [h])
    else isFalse fun hc => h (Except.ok.inj hc)
  | .error u, .error v =>
    if h : u = v then isTrue (by rw [h])
    else isFalse fun hc => h (Except.error.inj hc)
  | .ok _, .error _ => isFalse fun hc => Except.noConfusion hc
  | .error _, .ok _ => isFalse fun hc => Except.noConfusion hc

/-! ### Characterization of the fixed-width encoders -/

theorem IntXX_encode_eq (value : ℤ) (xx width : ℕ) (h1 : xx ≠ 0)
    (h64 : xx ≤ 64) :
    IntXXToBytesAndExpandWidth value xx width =
      if value < -(2 ^ (xx - 1) : ℤ) ∨ (2 ^ (xx - 1) - 1 : ℤ) < value then
        .error .rangeErr
      else if width < (xx + 7) / 8 then .error .indexOutOfRange
      else
        .ok (List.replicate (width - (xx + 7) / 8)
            (if value < 0 then 0xFF else 0x00) ++
          beBytes
            (if value < 0 then ((value + 2 ^ xx) % 2 ^ 64).toNat
             else value.toNat)
            ((xx + 7) / 8)) := by
  have hpow : (2 : ℤ) ^ (xx - 1) ≤ 2 ^ 63 :=
    pow_le_pow_right₀ (by norm_num) (by omega)
  have hpowpos : (0 : ℤ) < 2 ^ (xx - 1) := pow_pos (by norm_num) _
  have hmax : toInt64 (2 ^ (xx - 1) - 1) = (2 ^ (xx - 1) - 1 : ℤ) :=
    toInt64_eq_self (by omega) (by omega)
  have hmin : toInt64 (-(2 ^ (xx - 1))) = -(2 ^ (xx - 1) : ℤ) :=
    toInt64_eq_self (by omega) (by omega)
  simp only [IntXXToBytesAndExpandWidth]
  rw [if_neg (show ¬(xx = 0 ∨ 64 < xx) by omega), hmax, hmin]
  by_cases hr : value < -(2 ^ (xx - 1) : ℤ) ∨ (2 ^ (xx - 1) - 1 : ℤ) < value
  · rw [if_pos hr, if_pos hr]
  · rw [if_neg hr, if_neg hr]
    have hneed1 : 1 ≤ (xx + 7) / 8 := by omega
    by_cases hw : width < (xx + 7) / 8
    · rw [if_pos hw,
        writeLoop_none _ _ _ _ _ (by omega) (by push_cast; omega)]
    · rw [if_neg hw]
      have hle : (xx + 7) / 8 ≤ width := by omega
      rw [show List.replicate width (0 : ℕ) =
          List.replicate (width - (xx + 7) / 8) 0 ++
            List.replicate ((xx + 7) / 8) 0 by
        rw [← List.replicate_add]; congr 1; omega]
      rw [show ((width : ℤ) - (((xx + 7) / 8 : ℕ) : ℤ)) =
          ((List.replicate (width - (xx + 7) / 8) (0 : ℕ)).length : ℤ) by
        rw [List.length_replicate]; push_cast [hle]; ring]
      rw [writeLoop_app _ _ _ _ (List.length_replicate _ _)]
      by_cases hv : value < 0
      · simp only [hv, if_true, List.length_replicate]
        rw [List.drop_append_of_le_length (by simp)]
        simp
      · simp only [hv, if_false]

theorem UintXX_encode_eq (value : ℕ) (xx width : ℕ) (h1 : xx ≠ 0)
    (h64 : xx ≤ 64) :
    UintXXToBytesAndExpandWidth value xx width =
      if 2 ^ xx - 1 < value then .error .rangeErr
      else if width < (xx + 7) / 8 then .error .indexOutOfRange
      else
        .ok (List.replicate (width - (xx + 7) / 8) 0x00 ++
          beBytes (value &&& (2 ^ xx - 1)) ((xx + 7) / 8)) := by
  have hmod : (2 ^ xx - 1) % 2 ^ 64 = 2 ^ xx - 1 := by
    apply Nat.mod_eq_of_lt
    have : (2 : ℕ) ^ xx ≤ 2 ^ 64 := Nat.pow_le_pow_right (by norm_num) h64
    have : (0 : ℕ) < 2 ^ xx := pow_pos (by norm_num) _
    omega
  simp only [UintXXToBytesAndExpandWidth]
  rw [if_neg (show ¬(xx = 0 ∨ 64 < xx) by omega), hmod]
  by_cases hr : 2 ^ xx - 1 < value
  · rw [if_pos hr, if_pos hr]
  · rw [if_neg hr, if_neg hr]
    have hneed1 : 1 ≤ (xx + 7) / 8 := by omega
    by_cases hw : width < (xx + 7) / 8
    · rw [if_pos hw,
        writeLoop_none _ _ _ _ _ (by omega) (by push_cast; omega)]
    · rw [if_neg hw]
      have hle : (xx + 7) / 8 ≤ width := by omega
      rw [show List.replicate width (0 : ℕ) =
          List.replicate (width - (xx + 7) / 8) 0 ++
            List.replicate ((xx + 7) / 8) 0 by
        rw [← List.replicate_add]; congr 1; omega]
      rw [show ((width : ℤ) - (((xx + 7) / 8 : ℕ) : ℤ)) =
          ((List.replicate (width - (xx + 7) / 8) (0 : ℕ)).length : ℤ) by
        rw [List.length_replicate]; push_cast [hle]; ring]
      rw [writeLoop_app _ _ _ _ (List.length_replicate _ _)]

/-! ### Characterization of the fixed-width decoders -/

theorem UintXX_decode_ok (bytes : List ℕ) (xx : ℕ) (h1 : xx ≠ 0)
    (h64 : xx ≤ 64) (hwf : ∀ b ∈ bytes, b < 256)
    (hlen : (xx + 7) / 8 ≤ bytes.length) :
    UintXXFromBytes bytes xx =
      .ok (beVal (bytes.drop (bytes.length - (xx + 7) / 8))) := by
  have hwfd : ∀ b ∈ bytes.drop (bytes.length - (xx + 7) / 8), b < 256 :=
    fun b hb => hwf b (List.drop_subset _ _ hb)
  simp only [UintXXFromBytes]
  rw [if_neg (show ¬(xx = 0 ∨ 64 < xx) by omega),
    if_neg (by omega : ¬ bytes.length < (xx + 7) / 8),
    orBE_eq_beVal _ hwfd]

theorem IntXX_decode_ok (bytes : List ℕ) (xx : ℕ) (h1 : xx ≠ 0)
    (h64 : xx ≤ 64) (hwf : ∀ b ∈ bytes, b < 256)
    (hlen : (xx + 7) / 8 ≤ bytes.length) :
    IntXXFromBytes bytes xx =
      if xx = 64 ∨
          Nat.testBit (beVal (bytes.drop (bytes.length - (xx + 7) / 8)))
            (xx - 1) = false then
        .ok (toInt64 (beVal (bytes.drop (bytes.length - (xx + 7) / 8))))
      else
        .ok (toInt64
          ((beVal (bytes.drop (bytes.length - (xx + 7) / 8)) |||
            (2 ^ 64 - 2 ^ xx) : ℕ) : ℤ)) := by
  have hwfd : ∀ b ∈ bytes.drop (bytes.length - (xx + 7) / 8), b < 256 :=
    fun b hb => hwf b (List.drop_subset _ _ hb)
  have hand : ∀ m : ℕ,
      (m &&& (1 <<< (xx - 1)) = 0) ↔ (Nat.testBit m (xx - 1) = false) := by
    intro m
    rw [Nat.shiftLeft_eq, one_mul, Nat.and_two_pow]
    cases h : Nat.testBit m (xx - 1) <;>
      simp [pow_ne_zero, (pow_pos (show (0:ℕ) < 2 by norm_num) (xx - 1)).ne']
  simp only [IntXXFromBytes]
  rw [if_neg (show ¬(xx = 0 ∨ 64 < xx) by omega),
    if_neg (by omega : ¬ bytes.length < (xx + 7) / 8),
    orBE_eq_beVal _ hwfd]
  exact if_congr (or_congr Iff.rfl (hand _)) rfl rfl

/-! ### Claim theorems -/

/-- C9: for every input byte sequence, target size and fill byte,
`LeftPadBytes` returns the input unchanged when `size ≤ len(input)` (no
truncation, no error), and otherwise returns a sequence of length `size`
consisting of `size − len(input)` copies of the fill byte followed by the
input bytes in their original order. -/
theorem C9_left_pad_bytes (input : List ℕ) (size padByte : ℕ) :
    (size ≤ input.length → LeftPadBytes input size padByte = input) ∧
    (input.length < size →
      (LeftPadBytes input size padByte).length = size ∧
      (LeftPadBytes input size padByte).take (size - input.length) =
        List.replicate (size - input.length) padByte ∧
      (LeftPadBytes input size padByte).drop (size - input.length) = input) := by
  constructor
  · intro h
    simp [LeftPadBytes, h]
  · intro h
    have hn : ¬ size ≤ input.length := by omega
    have h1 := List.take_left (List.replicate (size - input.length) padByte) input
    have h2 := List.drop_left (List.replicate (size - input.length) padByte) input
    rw [List.length_replicate] at h1 h2
    refine ⟨?_, ?_, ?_⟩
    · simp only [LeftPadBytes, if_neg hn, List.length_append,
        List.length_replicate]
      omega
    · simp only [LeftPadBytes, if_neg hn]
      exact h1
    · simp only [LeftPadBytes, if_neg hn]
      exact h2

theorem C9_left_pad_bytes_witness :
    LeftPadBytes [1, 2] 1 9 = [1, 2] ∧
    (LeftPadBytes [1, 2] 4 9).length = 4 ∧
    (LeftPadBytes [1, 2] 4 9).take 2 = List.replicate 2 9 ∧
    (LeftPadBytes [1, 2] 4 9).drop 2 = [1, 2] :=
  ⟨(C9_left_pad_bytes [1, 2] 1 9).1 (by decide),
   ((C9_left_pad_bytes [1, 2] 4 9).2 (by decide)).1,
   ((C9_left_pad_bytes [1, 2] 4 9).2 (by decide)).2.1,
   ((C9_left_pad_bytes [1, 2] 4 9).2 (by decide)).2.2⟩

/-- C2: the claim states that encoding with `width < ceil(xx/8)` fails with a
`WidthTooSmall` error and never indexes out of bounds.  The code has no such
check: at the claim's own example (`value = 1`, `xx = 32` bits, `width = 3`
bytes) both fixed-width encoders run their write loop from the negative
index `width - neededBytesNum = -1` and panic with an out-of-bounds slice
index instead of returning an error. -/
theorem C2_width_too_small_panics :
    IntXXToBytesAndExpandWidth 1 32 3 = .error .indexOutOfRange ∧
    UintXXToBytesAndExpandWidth 1 32 3 = .error .indexOutOfRange ∧
    BCErr.indexOutOfRange ≠ BCErr.widthTooSmall := by
  refine ⟨by decide, by decide, by decide⟩

/-- C6: the claim states every accepted value is encoded into exactly `w`
bytes.  At `v = -256`, `w = 1` the negative branch accepts the value
(`twos = 2^8 + (-256) = 0`, which is non-negative and has bit length
`0 ≤ 8`) yet returns `twos`'s minimal byte representation — the empty
buffer — whose length `0` differs from `w = 1`. -/
theorem C6_negative_encode_wrong_length :
    BigIntToBytesAndExpandWidth (-256) 1 = .ok [] ∧
    (List.length ([] : List ℕ)) ≠ 1 := by
  refine ⟨by decide, by decide⟩

/-- Decode branch of `BigIntFromBytes` when the buffer is empty or the high
bit of the first byte is clear. -/
theorem BigIntFromBytes_high_clear (l : List ℕ)
    (hhead : l = [] ∨ l.headD 0 < 128) :
    BigIntFromBytes l = (beVal l : ℤ) := by
  rcases hhead with h | h
  · subst h
    rfl
  · have hb : (l.headD 0) &&& 0x80 = 0 := by
      have htb : (l.headD 0).testBit 7 = false :=
        Nat.testBit_lt_two_pow (show l.headD 0 < 2 ^ 7 by omega)
      calc l.headD 0 &&& 0x80 = l.headD 0 &&& 2 ^ 7 := by norm_num
        _ = ((l.headD 0).testBit 7).toNat * 2 ^ 7 := Nat.and_two_pow _ 7
        _ = 0 := by rw [htb]; rfl
    simp only [BigIntFromBytes]
    rw [if_pos (Or.inr hb)]

theorem BigIntFromBytes_high_set (l : List ℕ) (hne : l ≠ [])
    (hlt : l.headD 0 < 256) (hge : 128 ≤ l.headD 0) :
    BigIntFromBytes l = (beVal l : ℤ) - 2 ^ (8 * l.length) := by
  have hb : (l.headD 0) &&& 0x80 ≠ 0 := by
    have htb : (l.headD 0).testBit 7 = true := by
      have hdiv : l.headD 0 / 2 ^ 7 = 1 := by omega
      rw [Nat.testBit_to_div_mod, hdiv]
      rfl
    have : l.headD 0 &&& 0x80 = 128 := by
      calc l.headD 0 &&& 0x80 = l.headD 0 &&& 2 ^ 7 := by norm_num
        _ = ((l.headD 0).testBit 7).toNat * 2 ^ 7 := Nat.and_two_pow _ 7
        _ = 128 := by rw [htb]; rfl
    omega
  simp only [BigIntFromBytes]
  rw [if_neg (not_or.mpr ⟨hne, hb⟩)]

/-- C7: `BigIntFromBytes` never fails and returns the unsigned big-endian
value `x` of the buffer when the buffer is empty or the high bit of its
first byte is clear, and `x − 2^(8*len)` when the high bit is set. -/
theorem C7_bigint_decode (l : List ℕ) (hwf : ∀ b ∈ l, b < 256) :
    ((l = [] ∨ l.headD 0 < 128) → BigIntFromBytes l = (beVal l : ℤ)) ∧
    (l ≠ [] → 128 ≤ l.headD 0 →
      BigIntFromBytes l = (beVal l : ℤ) - 2 ^ (8 * l.length)) := by
  constructor
  · exact BigIntFromBytes_high_clear l
  · intro hne h
    have hlt : l.headD 0 < 256 := by
      cases l with
      | nil => exact absurd rfl hne
      | cons b t => exact hwf b (by simp)
    exact BigIntFromBytes_high_set l hne hlt h

theorem C7_bigint_decode_witness :
    BigIntFromBytes [5] = 5 ∧ BigIntFromBytes [128] = -128 := by
  constructor
  · rw [(C7_bigint_decode [5] (by decide)).1 (Or.inr (by decide))]
    rfl
  · rw [(C7_bigint_decode [128] (by decide)).2 (by decide) (by decide)]
    decide

/-- C4: for every bit width `xx ∈ [1,64]`, the signed fixed-width encoder
fails with a range error exactly when the value lies outside
`[-2^(xx-1), 2^(xx-1)-1]`, the unsigned encoder fails with a range error
exactly when the value exceeds `2^xx - 1`, and in particular encoding
`8388608` (one past the `int24` maximum `8388607`) at `xx = 24`,
`width = 32` fails with a range error. -/
theorem C4_range_rejection :
    (∀ (xx width : ℕ) (v : ℤ), 1 ≤ xx → xx ≤ 64 →
      -(2 ^ 63 : ℤ) ≤ v → v ≤ 2 ^ 63 - 1 →
      (IntXXToBytesAndExpandWidth v xx width = .error .rangeErr ↔
        (v < -(2 ^ (xx - 1) : ℤ) ∨ (2 ^ (xx - 1) - 1 : ℤ) < v))) ∧
    (∀ xx width value : ℕ, 1 ≤ xx → xx ≤ 64 → value < 2 ^ 64 →
      (UintXXToBytesAndExpandWidth value xx width = .error .rangeErr ↔
        2 ^ xx - 1 < value)) ∧
    IntXXToBytesAndExpandWidth 8388608 24 32 = .error .rangeErr := by
  refine ⟨?_, ?_, by decide⟩
  · intro xx width v hx1 hx64 _ _
    rw [IntXX_encode_eq v xx width (by omega) hx64]
    by_cases hr : v < -(2 ^ (xx - 1) : ℤ) ∨ (2 ^ (xx - 1) - 1 : ℤ) < v
    · simp [hr]
    · rw [if_neg hr]
      simp only [hr, iff_false]
      by_cases hw : width < (xx + 7) / 8
      · simp [hw]
      · simp [hw]
  · intro xx width value hx1 hx64 _
    rw [UintXX_encode_eq value xx width (by omega) hx64]
    by_cases hr : 2 ^ xx - 1 < value
    · simp [hr]
    · rw [if_neg hr]
      simp only [hr, iff_false]
      by_cases hw : width < (xx + 7) / 8
      · simp [hw]
      · simp [hw]

theorem C4_range_rejection_witness :
    IntXXToBytesAndExpandWidth 8 4 1 = .error .rangeErr ∧
    UintXXToBytesAndExpandWidth 16 4 1 = .error .rangeErr :=
  ⟨(C4_range_rejection.1 4 1 8 (by norm_num) (by norm_num) (by norm_num)
      (by norm_num)).mpr (by norm_num),
   (C4_range_rejection.2.1 4 1 16 (by norm_num) (by norm_num)
      (by norm_num)).mpr (by norm_num)⟩

/-- C5: for `xx ∈ [1,64]` and `width > ceil(xx/8)`, whenever the signed
encoder succeeds on a negative value every leading byte of the output is
`0xFF`, whenever it succeeds on a non-negative value every leading byte is
`0x00`, and whenever the unsigned encoder succeeds every leading byte is
`0x00`. -/
theorem C5_sign_extension (xx width : ℕ) (h1 : 1 ≤ xx) (h64 : xx ≤ 64)
    (hw : (xx + 7) / 8 < width) :
    (∀ (v : ℤ) (out : List ℕ),
      IntXXToBytesAndExpandWidth v xx width = .ok out →
      out.take (width - (xx + 7) / 8) =
        List.replicate (width - (xx + 7) / 8) (if v < 0 then 0xFF else 0x00)) ∧
    (∀ (value : ℕ) (out : List ℕ),
      UintXXToBytesAndExpandWidth value xx width = .ok out →
      out.take (width - (xx + 7) / 8) =
        List.replicate (width - (xx + 7) / 8) 0x00) := by
  constructor
  · intro v out hok
    rw [IntXX_encode_eq v xx width (by omega) h64] at hok
    by_cases hr : v < -(2 ^ (xx - 1) : ℤ) ∨ (2 ^ (xx - 1) - 1 : ℤ) < v
    · rw [if_pos hr] at hok
      exact absurd hok (by simp)
    · rw [if_neg hr, if_neg (by omega : ¬ width < (xx + 7) / 8)] at hok
      have hout := Except.ok.inj hok
      have htake := List.take_left
        (List.replicate (width - (xx + 7) / 8) (if v < 0 then 0xFF else 0x00))
        (beBytes (if v < 0 then ((v + 2 ^ xx) % 2 ^ 64).toNat else v.toNat)
          ((xx + 7) / 8))
      rw [List.length_replicate] at htake
      rw [← hout, htake]
  · intro value out hok
    rw [UintXX_encode_eq value xx width (by omega) h64] at hok
    by_cases hr : 2 ^ xx - 1 < value
    · rw [if_pos hr] at hok
      exact absurd hok (by simp)
    · rw [if_neg hr, if_neg (by omega : ¬ width < (xx + 7) / 8)] at hok
      have hout := Except.ok.inj hok
      have htake := List.take_left
        (List.replicate (width - (xx + 7) / 8) 0x00)
        (beBytes (value &&& (2 ^ xx - 1)) ((xx + 7) / 8))
      rw [List.length_replicate] at htake
      rw [← hout, htake]

theorem C5_sign_extension_witness :
    [255, 253].take 1 = List.replicate 1 255 ∧
    [0, 3].take 1 = List.replicate 1 0 := by
  constructor
  · have h := (C5_sign_extension 8 2 (by norm_num) (by norm_num)
      (by norm_num)).1 (-3) [255, 253] (by decide)
    exact h
  · have h := (C5_sign_extension 8 2 (by norm_num) (by norm_num)
      (by norm_num)).2 3 [0, 3] (by decide)
    exact h

/-- C8 counterexample: the claim asserts that the strict decoder at
`xxx = 40` applied to an all-`0xFF` buffer recovers `-1`; in fact the code
rejects every `xxx ≤ 64` up front, so at the claim's own input it returns
the unsupported-bit-width error instead of any value. -/
theorem C8_counterexample :
    BigIntXXXFromBytes [255, 255, 255, 255, 255] 40 =
      .error .unsupportedBitWidth ∧
    BigIntXXXFromBytes [255, 255, 255, 255, 255] 40 ≠ .ok (-1) := by
  refine ⟨rfl, by decide⟩

/-- C8 (amended): `BigIntXXXFromBytes` fails with the unsupported-bit-width
error for every buffer at `xxx = 40` and at `xxx = 64` (all `xxx ≤ 64` are
rejected in favour of the fixed-width decoder); at a supported strict
position such as `xxx = 72`, an all-`0xFF` buffer of sufficient length
decodes to `-1`. -/
theorem C8_strict_position :
    (∀ bytes : List ℕ,
      BigIntXXXFromBytes bytes 40 = .error .unsupportedBitWidth) ∧
    (∀ bytes : List ℕ,
      BigIntXXXFromBytes bytes 64 = .error .unsupportedBitWidth) ∧
    (∀ bytes : List ℕ, (∀ b ∈ bytes, b = 255) → 9 ≤ bytes.length →
      BigIntXXXFromBytes bytes 72 = .ok (-1)) := by
  refine ⟨fun _ => rfl, fun _ => rfl, ?_⟩
  intro bytes hall hlen
  have hd_sub : ∀ b ∈ bytes.drop (bytes.length - (72 + 7) / 8), b = 255 :=
    fun b hb => hall b (List.drop_subset _ _ hb)
  have hd_len : (bytes.drop (bytes.length - (72 + 7) / 8)).length = 9 := by
    rw [List.length_drop]
    omega
  have hval : beVal (bytes.drop (bytes.length - (72 + 7) / 8)) = 2 ^ 72 - 1 := by
    rw [beVal_all_255 _ hd_sub, hd_len]
  have htb : Nat.testBit (2 ^ 72 - 1) 71 = true := by
    rw [Nat.testBit_to_div_mod]
    norm_num
  simp only [BigIntXXXFromBytes]
  rw [if_neg (by norm_num : ¬ (72 ≤ 64)),
    if_neg (by omega : ¬ bytes.length < (72 + 7) / 8), hval, htb]
  norm_num

theorem C8_strict_position_witness :
    BigIntXXXFromBytes (List.replicate 5 255) 40 = .error .unsupportedBitWidth ∧
    BigIntXXXFromBytes [1, 2] 64 = .error .unsupportedBitWidth ∧
    BigIntXXXFromBytes (List.replicate 9 255) 72 = .ok (-1) :=
  ⟨C8_strict_position.1 _, C8_strict_position.2.1 _,
   C8_strict_position.2.2 (List.replicate 9 255)
     (fun b hb => List.eq_of_mem_replicate hb) (by simp)⟩

/-- C10 counterexample: the claim asserts `IntXXFromBytes` returns the full
unsigned big-endian value of the trailing bytes unmodified whenever bit
`xx-1` is clear; at `xx = 63` on the buffer `80 00 00 00 00 00 00 00` that
value is `2^63` and bit 62 is clear, yet the decoder returns the `int64`
reinterpretation `-2^63`, not `2^63`. -/
theorem C10_counterexample :
    Nat.testBit (beVal [128, 0, 0, 0, 0, 0, 0, 0]) 62 = false ∧
    IntXXFromBytes [128, 0, 0, 0, 0, 0, 0, 0] 63 = .ok (-(2 ^ 63)) ∧
    ((beVal [128, 0, 0, 0, 0, 0, 0, 0] : ℕ) : ℤ) = 2 ^ 63 ∧
    (-(2 ^ 63) : ℤ) ≠ 2 ^ 63 := by
  refine ⟨by decide, by decide, by decide, by decide⟩

/-- C10 (amended): for every buffer of at least `ceil(xx/8)` bytes,
`UintXXFromBytes` returns the full unsigned big-endian value of the
trailing `ceil(xx/8)` bytes without masking bits at or above position `xx`,
and `IntXXFromBytes` returns that value unmodified whenever bit `xx-1` is
clear and the value is below `2^63` (when bits `63..xx` push it to `2^63`
or above, it returns the value reinterpreted as a signed 64-bit integer,
i.e. value − `2^64`); hence for `xx = 4` and the single byte `0x17` both
decoders return `23`, which exceeds the 4-bit maximum `15`. -/
theorem C10_no_mask_above_xx (xx : ℕ) (bytes : List ℕ) (h1 : 1 ≤ xx)
    (h64 : xx ≤ 64) (hwf : ∀ b ∈ bytes, b < 256)
    (hlen : (xx + 7) / 8 ≤ bytes.length) :
    (UintXXFromBytes bytes xx =
      .ok (beVal (bytes.drop (bytes.length - (xx + 7) / 8)))) ∧
    (Nat.testBit (beVal (bytes.drop (bytes.length - (xx + 7) / 8)))
        (xx - 1) = false →
      beVal (bytes.drop (bytes.length - (xx + 7) / 8)) < 2 ^ 63 →
      IntXXFromBytes bytes xx =
        .ok ((beVal (bytes.drop (bytes.length - (xx + 7) / 8)) : ℤ))) ∧
    (Nat.testBit (beVal (bytes.drop (bytes.length - (xx + 7) / 8)))
        (xx - 1) = false →
      2 ^ 63 ≤ beVal (bytes.drop (bytes.length - (xx + 7) / 8)) →
      IntXXFromBytes bytes xx =
        .ok ((beVal (bytes.drop (bytes.length - (xx + 7) / 8)) : ℤ) - 2 ^ 64)) ∧
    (UintXXFromBytes [23] 4 = .ok 23 ∧ IntXXFromBytes [23] 4 = .ok 23 ∧
      (15 : ℕ) < 23) := by
  have hwfd : ∀ b ∈ bytes.drop (bytes.length - (xx + 7) / 8), b < 256 :=
    fun b hb => hwf b (List.drop_subset _ _ hb)
  have hdlen : (bytes.drop (bytes.length - (xx + 7) / 8)).length =
      (xx + 7) / 8 := by
    rw [List.length_drop]
    omega
  have hult : beVal (bytes.drop (bytes.length - (xx + 7) / 8)) < 2 ^ 64 := by
    have h := beVal_lt _ hwfd
    rw [hdlen] at h
    exact lt_of_lt_of_le h (Nat.pow_le_pow_right (by norm_num) (by omega))
  refine ⟨UintXX_decode_ok bytes xx (by omega) h64 hwf hlen, ?_, ?_,
    by decide, by decide, by decide⟩
  · intro htb hlt
    rw [IntXX_decode_ok bytes xx (by omega) h64 hwf hlen,
      if_pos (Or.inr htb),
      toInt64_eq_self
        (le_trans (by norm_num) (Int.ofNat_nonneg _))
        (by exact_mod_cast hlt)]
  · intro htb hge
    rw [IntXX_decode_ok bytes xx (by omega) h64 hwf hlen,
      if_pos (Or.inr htb),
      toInt64_eq_sub (by exact_mod_cast hge) (by exact_mod_cast hult)]

theorem C10_no_mask_above_xx_witness :
    UintXXFromBytes [23] 4 = .ok 23 ∧ IntXXFromBytes [23] 4 = .ok 23 := by
  have h := C10_no_mask_above_xx 4 [23] (by norm_num) (by norm_num)
    (by decide) (by norm_num)
  exact ⟨h.1, h.2.1 (by decide) (by decide)⟩

/-- C1: for every bit width `xx ∈ [1,64]`, every value in the signed
`xx`-bit range and every `width ≥ ceil(xx/8)`, decoding the encoding
round-trips: `IntXXFromBytes (IntXXToBytesAndExpandWidth v xx width) xx`
returns `v` (the decoder reads only the trailing `ceil(xx/8)` bytes and
sign-extends from bit `xx-1`, so any wider buffer decodes back to `v`). -/
theorem C1_roundtrip_fixed_width (xx width : ℕ) (v : ℤ) (h1 : 1 ≤ xx)
    (h64 : xx ≤ 64) (hlo : -(2 ^ (xx - 1) : ℤ) ≤ v)
    (hhi : v ≤ 2 ^ (xx - 1) - 1) (hw : (xx + 7) / 8 ≤ width) :
    ∃ out, IntXXToBytesAndExpandWidth v xx width = .ok out ∧
      IntXXFromBytes out xx = .ok v := by
  have hxx8 : xx ≤ 8 * ((xx + 7) / 8) := by omega
  have hpowmono : (2 : ℕ) ^ xx ≤ 2 ^ (8 * ((xx + 7) / 8)) :=
    Nat.pow_le_pow_right (by norm_num) hxx8
  have hpow63 : (2 : ℤ) ^ (xx - 1) ≤ 2 ^ 63 :=
    pow_le_pow_right₀ (by norm_num) (by omega)
  have hpow64 : (2 : ℤ) ^ xx ≤ 2 ^ 64 :=
    pow_le_pow_right₀ (by norm_num) h64
  have hxpow : (2 : ℤ) ^ (xx - 1) + 2 ^ (xx - 1) = 2 ^ xx := by
    rw [← two_mul, ← pow_succ']
    congr 1
    omega
  set u : ℕ :=
    if v < 0 then ((v + 2 ^ xx) % 2 ^ 64).toNat else v.toNat with hu
  have keyNeg : v < 0 →
      (u : ℤ) = v + 2 ^ xx ∧ 2 ^ (xx - 1) ≤ u ∧ u < 2 ^ xx := by
    intro hv
    have hge : (2 : ℤ) ^ (xx - 1) ≤ v + 2 ^ xx := by linarith
    have hlt2xx : v + 2 ^ xx < 2 ^ xx := by linarith
    have hpos : (0 : ℤ) < 2 ^ (xx - 1) := pow_pos (by norm_num) _
    have hmod : (v + 2 ^ xx) % 2 ^ 64 = v + 2 ^ xx :=
      Int.emod_eq_of_lt (by linarith) (by linarith)
    have huz : (u : ℤ) = v + 2 ^ xx := by
      rw [hu, if_pos hv, hmod, Int.toNat_of_nonneg (by linarith)]
    refine ⟨huz, ?_, ?_⟩
    · have h := hge
      rw [← huz] at h
      exact_mod_cast h
    · have h := hlt2xx
      rw [← huz] at h
      exact_mod_cast h
  have keyPos : 0 ≤ v → (u : ℤ) = v ∧ u < 2 ^ (xx - 1) := by
    intro hv
    have huz : (u : ℤ) = v := by
      rw [hu, if_neg (not_lt.mpr hv), Int.toNat_of_nonneg hv]
    refine ⟨huz, ?_⟩
    have h : (u : ℤ) < 2 ^ (xx - 1) := by
      rw [huz]
      linarith
    exact_mod_cast h
  have hult : u < 2 ^ (8 * ((xx + 7) / 8)) := by
    by_cases hv : v < 0
    · exact lt_of_lt_of_le (keyNeg hv).2.2 hpowmono
    · have h2 : (2 : ℕ) ^ (xx - 1) ≤ 2 ^ xx :=
        Nat.pow_le_pow_right (by norm_num) (by omega)
      exact lt_of_lt_of_le
        (lt_of_lt_of_le (keyPos (not_lt.mp hv)).2 h2) hpowmono
  refine ⟨List.replicate (width - (xx + 7) / 8)
      (if v < 0 then 0xFF else 0x00) ++ beBytes u ((xx + 7) / 8), ?_, ?_⟩
  · rw [IntXX_encode_eq v xx width (by omega) h64,
      if_neg (not_or.mpr ⟨not_lt.mpr hlo, not_lt.mpr hhi⟩),
      if_neg (by omega : ¬ width < (xx + 7) / 8), ← hu]
  · set out := List.replicate (width - (xx + 7) / 8)
      (if v < 0 then (0xFF : ℕ) else 0x00) ++ beBytes u ((xx + 7) / 8)
      with hout
    have hwfout : ∀ b ∈ out, b < 256 := by
      intro b hb
      rw [hout] at hb
      rcases List.mem_append.mp hb with hb | hb
      · have hbe := List.eq_of_mem_replicate hb
        split at hbe <;> omega
      · exact beBytes_wf _ _ b hb
    have hlenout : out.length = width := by
      rw [hout]
      simp only [List.length_append, List.length_replicate, beBytes_length]
      omega
    have hdrop : out.drop (out.length - (xx + 7) / 8) =
        beBytes u ((xx + 7) / 8) := by
      rw [hlenout, hout]
      have h2 := List.drop_left
        (List.replicate (width - (xx + 7) / 8) (if v < 0 then (0xFF : ℕ) else 0x00))
        (beBytes u ((xx + 7) / 8))
      rw [List.length_replicate] at h2
      exact h2
    rw [IntXX_decode_ok out xx (by omega) h64 hwfout (by omega), hdrop,
      beVal_beBytes, Nat.mod_eq_of_lt hult]
    by_cases hv : v < 0
    · obtain ⟨huz, hge, hlt⟩ := keyNeg hv
      by_cases hxx64 : xx = 64
      · rw [if_pos (Or.inl hxx64)]
        have hgeZ : (2 : ℤ) ^ 63 ≤ (u : ℤ) := by
          have : ((2 ^ (xx - 1) : ℕ) : ℤ) ≤ (u : ℤ) := by exact_mod_cast hge
          rw [hxx64] at this
          exact_mod_cast this
        have hltZ : (u : ℤ) < 2 ^ 64 := by
          have : (u : ℤ) < ((2 ^ xx : ℕ) : ℤ) := by exact_mod_cast hlt
          rw [hxx64] at this
          exact_mod_cast this
        rw [toInt64_eq_sub hgeZ hltZ]
        congr 1
        rw [huz, hxx64]
        ring
      · have htb : Nat.testBit u (xx - 1) = true := by
          have hd1 : 1 ≤ u / 2 ^ (xx - 1) :=
            (Nat.le_div_iff_mul_le (pow_pos (by norm_num) _)).mpr
              (by omega)
          have hd2 : u / 2 ^ (xx - 1) < 2 := by
            rw [Nat.div_lt_iff_lt_mul (pow_pos (by norm_num) _)]
            calc u < 2 ^ xx := hlt
              _ = 2 ^ (xx - 1 + 1) := by congr 1; omega
              _ = 2 * 2 ^ (xx - 1) := by rw [pow_succ]; ring
          have hdiv : u / 2 ^ (xx - 1) = 1 := by omega
          rw [Nat.testBit_to_div_mod, hdiv]
          rfl
        rw [if_neg (by simp [hxx64, htb])]
        have hmask : (2 : ℕ) ^ 64 - 2 ^ xx = (2 ^ (64 - xx) - 1) * 2 ^ xx := by
          have hsplit : (2 : ℕ) ^ 64 = 2 ^ (64 - xx) * 2 ^ xx := by
            rw [← pow_add]
            congr 1
            omega
          rw [Nat.sub_mul, one_mul, ← hsplit]
        have hor : u ||| (2 ^ 64 - 2 ^ xx) = 2 ^ 64 - 2 ^ xx + u := by
          rw [Nat.lor_comm, hmask, lor_eq_add hlt, ← hmask]
        rw [hor]
        have hcast : ((2 ^ 64 - 2 ^ xx + u : ℕ) : ℤ) =
            2 ^ 64 - 2 ^ xx + (u : ℤ) := by
          have hle : (2 : ℕ) ^ xx ≤ 2 ^ 64 :=
            Nat.pow_le_pow_right (by norm_num) h64
          rw [Nat.cast_add, Nat.cast_sub hle]
          push_cast
          ring
        have hgeZ : (2 : ℤ) ^ (xx - 1) ≤ (u : ℤ) := by exact_mod_cast hge
        have hltZ : (u : ℤ) < 2 ^ xx := by exact_mod_cast hlt
        rw [show ((2 ^ 64 - 2 ^ xx + u : ℕ) : ℤ) =
            2 ^ 64 - 2 ^ xx + (u : ℤ) from hcast] at *
        congr 1
        rw [hcast, toInt64_eq_sub (by linarith) (by linarith), huz]
        ring
    · have hv0 : 0 ≤ v := not_lt.mp hv
      obtain ⟨huz, hlt⟩ := keyPos hv0
      have hcond : xx = 64 ∨ Nat.testBit u (xx - 1) = false := by
        by_cases hxx64 : xx = 64
        · exact Or.inl hxx64
        · exact Or.inr (Nat.testBit_lt_two_pow hlt)
      have hltZ : (u : ℤ) < 2 ^ 63 := by
        have : (u : ℤ) < ((2 ^ (xx - 1) : ℕ) : ℤ) := by exact_mod_cast hlt
        have h2 : ((2 ^ (xx - 1) : ℕ) : ℤ) ≤ 2 ^ 63 := by
          push_cast
          exact hpow63
        linarith
      rw [if_pos hcond,
        toInt64_eq_self (le_trans (by norm_num) (Int.ofNat_nonneg u)) hltZ,
        huz]

theorem C1_roundtrip_fixed_width_witness :
    IntXXToBytesAndExpandWidth (-3) 4 2 = .ok [255, 13] ∧
    IntXXFromBytes [255, 13] 4 = .ok (-3) := by
  obtain ⟨out, h1, h2⟩ := C1_roundtrip_fixed_width 4 2 (-3) (by norm_num)
    (by norm_num) (by norm_num) (by norm_num) (by norm_num)
  have he : IntXXToBytesAndExpandWidth (-3) 4 2 = .ok [255, 13] := by decide
  rw [he] at h1
  obtain rfl : out = [255, 13] := (Except.ok.inj h1).symm
  exact ⟨he, h2⟩

theorem LeftPadBytes00_spec (l : List ℕ) (w : ℕ) (hl : l.length ≤ w) :
    (LeftPadBytes00 l w).length = w ∧
    beVal (LeftPadBytes00 l w) = beVal l ∧
    (∀ b ∈ LeftPadBytes00 l w, b = 0 ∨ b ∈ l) := by
  unfold LeftPadBytes00 LeftPadBytes
  by_cases h : w ≤ l.length
  · rw [if_pos h]
    exact ⟨by omega, rfl, fun b hb => Or.inr hb⟩
  · rw [if_neg h]
    refine ⟨?_, ?_, ?_⟩
    · simp only [List.length_append, List.length_replicate]
      omega
    · rw [beVal_append, beVal_replicate_zero]
      simp
    · intro b hb
      rcases List.mem_append.mp hb with hb | hb
      · exact Or.inl (List.eq_of_mem_replicate hb)
      · exact Or.inr hb

/-- C3: for every width `w ≥ 1` and every arbitrary-precision integer `v`
with `-2^(8w-1) ≤ v ≤ 2^(8w-1) - 1`, decoding the encoding round-trips:
`BigIntFromBytes (BigIntToBytesAndExpandWidth v w)` returns `v`. -/
theorem C3_roundtrip_bigint (w : ℕ) (v : ℤ) (hw : 1 ≤ w)
    (hlo : -(2 ^ (8 * w - 1) : ℤ) ≤ v) (hhi : v ≤ 2 ^ (8 * w - 1) - 1) :
    ∃ out, BigIntToBytesAndExpandWidth v w = .ok out ∧
      BigIntFromBytes out = v := by
  have hsplit : (2 : ℤ) ^ (8 * w - 1) + 2 ^ (8 * w - 1) = 2 ^ (8 * w) := by
    rw [← two_mul, ← pow_succ']
    congr 1
    omega
  have hposp : (0 : ℤ) < 2 ^ (8 * w - 1) := pow_pos (by norm_num) _
  have hw8 : w * 8 = 8 * w := Nat.mul_comm w 8
  have hsplitN : (2 : ℕ) ^ (8 * w - 1) = 128 * 2 ^ (8 * (w - 1)) := by
    have h78 : 8 * w - 1 = 7 + 8 * (w - 1) := by omega
    rw [h78, pow_add]
    norm_num
  by_cases hv : 0 ≤ v
  · have hvlt : v < 2 ^ (8 * w - 1) := by linarith
    have hvlt2 : v < 2 ^ (8 * w) := by linarith
    have hnat : (v.natAbs : ℤ) = v := Int.natAbs_of_nonneg hv
    have hnatlt : v.natAbs < 2 ^ (8 * w) := by
      rw [← hnat] at hvlt2
      exact_mod_cast hvlt2
    have hnatlt1 : v.natAbs < 2 ^ (8 * w - 1) := by
      rw [← hnat] at hvlt
      exact_mod_cast hvlt
    have hbl : ¬ (w * 8 < natBitLen v.natAbs) := by
      rw [not_lt, hw8]
      exact natBitLen_le.mpr hnatlt
    have hlenle : (natBytes v.natAbs).length ≤ w := natBytes_len_le hnatlt
    obtain ⟨hplen, hpval, hpwf⟩ := LeftPadBytes00_spec (natBytes v.natAbs) w hlenle
    have hwfout : ∀ b ∈ LeftPadBytes00 (natBytes v.natAbs) w, b < 256 := by
      intro b hb
      rcases hpwf b hb with hb0 | hbl2
      · omega
      · exact natBytes_wf _ b hbl2
    have hvalout : beVal (LeftPadBytes00 (natBytes v.natAbs) w) = v.natAbs := by
      rw [hpval, beVal_natBytes]
    refine ⟨LeftPadBytes00 (natBytes v.natAbs) w, ?_, ?_⟩
    · simp only [BigIntToBytesAndExpandWidth]
      rw [if_pos hv, if_neg hbl]
    · have hne : LeftPadBytes00 (natBytes v.natAbs) w ≠ [] := by
        intro hc
        rw [hc] at hplen
        simp at hplen
        omega
      have hhead : (LeftPadBytes00 (natBytes v.natAbs) w).headD 0 < 128 := by
        rw [headD_eq_div _ hwfout hne, hvalout, hplen]
        rw [Nat.div_lt_iff_lt_mul (pow_pos (by norm_num) _)]
        calc v.natAbs < 2 ^ (8 * w - 1) := hnatlt1
          _ = 128 * 2 ^ (8 * (w - 1)) := hsplitN
      rw [BigIntFromBytes_high_clear _ (Or.inr hhead), hvalout, hnat]
  · have hvneg : v < 0 := not_le.mp hv
    have htwos_lo : (2 : ℤ) ^ (8 * w - 1) ≤ 2 ^ (8 * w) + v := by
      linarith
    have htwos_hi : 2 ^ (8 * w) + v < (2 : ℤ) ^ (8 * w) := by
      linarith
    have ht0 : (0 : ℤ) ≤ 2 ^ (8 * w) + v := le_trans (le_of_lt hposp) htwos_lo
    have htn : (((2 ^ (8 * w) + v : ℤ)).natAbs : ℤ) = 2 ^ (8 * w) + v :=
      Int.natAbs_of_nonneg ht0
    have htnlt : ((2 ^ (8 * w) + v : ℤ)).natAbs < 2 ^ (8 * w) := by
      rw [← htn] at htwos_hi
      exact_mod_cast htwos_hi
    have htnge : 2 ^ (8 * w - 1) ≤ ((2 ^ (8 * w) + v : ℤ)).natAbs := by
      rw [← htn] at htwos_lo
      exact_mod_cast htwos_lo
    have htnge2 : 2 ^ (8 * (w - 1)) ≤ ((2 ^ (8 * w) + v : ℤ)).natAbs :=
      le_trans (Nat.pow_le_pow_right (by norm_num) (by omega)) htnge
    have hbl : ¬ (8 * w < natBitLen ((2 ^ (8 * w) + v : ℤ)).natAbs) := by
      rw [not_lt]
      exact natBitLen_le.mpr htnlt
    have hlen : (natBytes ((2 ^ (8 * w) + v : ℤ)).natAbs).length = w :=
      natBytes_len_eq hw htnge2 htnlt
    have hwfout := natBytes_wf ((2 ^ (8 * w) + v : ℤ)).natAbs
    have hne : natBytes ((2 ^ (8 * w) + v : ℤ)).natAbs ≠ [] := by
      intro hc
      rw [hc] at hlen
      simp at hlen
      omega
    have hvalout : beVal (natBytes ((2 ^ (8 * w) + v : ℤ)).natAbs) =
        ((2 ^ (8 * w) + v : ℤ)).natAbs := beVal_natBytes _
    refine ⟨natBytes ((2 ^ (8 * w) + v : ℤ)).natAbs, ?_, ?_⟩
    · simp only [BigIntToBytesAndExpandWidth, hw8]
      rw [if_neg hv, if_neg (not_or.mpr ⟨not_lt.mpr ht0, hbl⟩)]
    · have hhead_ge :
          128 ≤ (natBytes ((2 ^ (8 * w) + v : ℤ)).natAbs).headD 0 := by
        rw [headD_eq_div _ hwfout hne, hvalout, hlen]
        rw [Nat.le_div_iff_mul_le (pow_pos (by norm_num) _)]
        calc 128 * 2 ^ (8 * (w - 1)) = 2 ^ (8 * w - 1) := hsplitN.symm
          _ ≤ ((2 ^ (8 * w) + v : ℤ)).natAbs := htnge
      have hhead_lt :
          (natBytes ((2 ^ (8 * w) + v : ℤ)).natAbs).headD 0 < 256 := by
        cases hcase : natBytes ((2 ^ (8 * w) + v : ℤ)).natAbs with
        | nil => exact absurd hcase hne
        | cons b tl =>
          have hbmem : b < 256 := hwfout b (by rw [hcase]; simp)
          simpa using hbmem
      rw [BigIntFromBytes_high_set _ hne hhead_lt hhead_ge, hvalout, hlen, htn]
      ring

theorem C3_roundtrip_bigint_witness :
    BigIntToBytesAndExpandWidth (-1) 1 = .ok [255] ∧
    BigIntFromBytes [255] = -1 := by
  obtain ⟨out, h1, h2⟩ := C3_roundtrip_bigint 1 (-1) (by norm_num)
    (by norm_num) (by norm_num)
  have he : BigIntToBytesAndExpandWidth (-1) 1 = .ok [255] := by decide
  rw [he] at h1
  obtain rfl : out = [255] := (Except.ok.inj h1).symm
  exact ⟨he, h2⟩
